import Mathlib

/-!
A shallow embedding of the simplified Timsort implementation in
`src/TimSort.py`, together with proofs and refutations of its specified
properties.

Conventions used throughout:

* Python lists become `List α`; an in-bounds read `L[i]` becomes
  `L.getD i default` (the default is irrelevant wherever the index is in
  bounds, which the segmentation-phase claims guarantee).
* The stateful iterators `IncDecRuns` and `FuseSegments` are embedded as
  explicit state machines with step functions (`idrNext`, `fsNext`); their
  lazily produced streams are materialized by fuelled iteration.  Every
  emission strictly advances the scan position (respectively strictly
  decreases the measure `fsMeasure`), so fuel `L.length` (respectively
  `L.length + 2`) is always sufficient; the sufficiency is part of the
  proofs below.  `IncDecRuns.finished()` holds exactly when the iterator
  has no further segment to emit, so in the materialized model it becomes
  the test that the remaining segment list is empty.
* The auxiliary merge buffer is created as `[None] * len(L)` in Python, so
  buffer cells are `Option α`.  The merge phase runs in `Except Err`:
  comparing a cell that holds `none` is `Err.typeError` (Python raises
  `TypeError` when comparing `None` with a value), and an out-of-range
  index is `Err.indexError`.
-/

namespace TimSortPy

/-- Constants for segment types: `Inc, Dec, Unsorted = +1, -1, 0`. -/
def Inc : Int := 1

def Dec : Int := -1

def Unsorted : Int := 0

/-- Threshold for run lengths: `runThreshold = 32`. -/
def runThreshold : Nat := 32

/-- Minimal block size used by the block split: `blockMin = 32`. -/
def blockMin : Nat := 32

/-- Maximal block size: `blockMax = 63` (note `blockMax >= blockMin*2+1`). -/
def blockMax : Nat := 63

/-- `Segment(start, end, tag)`: a contiguous index range with a direction tag. -/
structure Segment where
  start : Nat
  end_ : Nat
  tag : Int
deriving DecidableEq, Repr

/-- `Segment.len`: the length `end - start` of a segment. -/
def Segment.len (s : Segment) : Nat := s.end_ - s.start

/-- State of the `IncDecRuns` iterator: current scan direction `dir`, most
recent segment boundary `i`, and position reached `j`.  The list `L`, the
key and `m = len(L) - 1` are fixed parameters. -/
structure IDRState where
  dir : Int
  i : Nat
  j : Nat
deriving DecidableEq, Repr

section Segmentation

variable {α : Type} {K : Type} [LinearOrder K] [Inhabited α]

/-- The loop guard of `IncDecRuns.next`: at position `p`, direction `Inc`
requires `key(L[p]) <= key(L[p+1])` and direction `Dec` requires
`key(L[p]) >= key(L[p+1])`. -/
def relB (L : List α) (key : α → K) (dir : Int) (p : Nat) : Bool :=
  (dir == Inc && decide (key (L.getD p default) ≤ key (L.getD (p + 1) default))) ||
  (dir == Dec && decide (key (L.getD p default) ≥ key (L.getD (p + 1) default)))

/-- The `while` loop inside `IncDecRuns.next`, advancing `j` while
`j < m` and the direction relation holds.  The fuel argument is exactly
`m - j`, so fuel `0` coincides with the bound check `j < m`. -/
def idrScanAux (L : List α) (key : α → K) (dir : Int) : Nat → Nat → Nat
  | j, 0 => j
  | j, f + 1 => if relB L key dir j then idrScanAux L key dir (j + 1) f else j

/-- Result of the scanning `while` loop of `IncDecRuns.next` started at `j`. -/
def idrScan (L : List α) (key : α → K) (dir : Int) (j : Nat) : Nat :=
  idrScanAux L key dir j (L.length - 1 - j)

/-- Initial `IncDecRuns` state: direction `Inc` if `key(L[1]) >= key(L[0])`
else `Dec`, with `i = j = 0`. -/
def idrInit (L : List α) (key : α → K) : IDRState :=
  ⟨if key (L.getD 1 default) ≥ key (L.getD 0 default) then Inc else Dec, 0, 0⟩

/-- One call of `IncDecRuns.next`: returns the next segment (or `none` when
`j = m`) together with the updated iterator state. -/
def idrNext (L : List α) (key : α → K) (s : IDRState) : Option Segment × IDRState :=
  let m := L.length - 1
  if s.j = m then (none, s)
  else
    let i := s.j
    let j := idrScan L key s.dir i
    if j = m then (some ⟨i, m + 1, s.dir⟩, ⟨s.dir, i, j⟩)
    else (some ⟨i, j, s.dir⟩, ⟨-s.dir, i, j⟩)

/-- Materialization of the `IncDecRuns` stream: iterate `idrNext` with the
given fuel, collecting the emitted segments. -/
def idrList (L : List α) (key : α → K) : Nat → IDRState → List Segment
  | 0, _ => []
  | f + 1, s =>
    match idrNext L key s with
    | (none, _) => []
    | (some seg, s') => seg :: idrList L key f s'

/-- All segments emitted by `IncDecRuns(L, key)`.  Each emission strictly
advances `j`, so fuel `L.length` suffices. -/
def idrSegs (L : List α) (key : α → K) : List Segment :=
  idrList L key L.length (idrInit L key)

/-- State of the `FuseSegments` iterator: the two lookahead segments
`next1`, `next2` and the not-yet-pulled remainder of the `IncDecRuns`
stream. -/
structure FSState where
  next1 : Option Segment
  next2 : Option Segment
  rest : List Segment
deriving DecidableEq, Repr

/-- Pull one segment from the materialized remainder of the stream
(one call of `IncDecRuns.next` in `FuseSegments`). -/
def fsPull : List Segment → Option Segment × List Segment
  | [] => (none, [])
  | c :: cs => (some c, cs)

/-- `FuseSegments.__init__`: pull the first two segments as lookahead. -/
def fsInit (rs : List Segment) : FSState :=
  let p1 := fsPull rs
  let p2 := fsPull p1.2
  ⟨p1.1, p2.1, p2.2⟩

/-- The inner `while` loop of `FuseSegments.next`: keep replacing `next2`
with the next pulled segment while `next2` is short and the scanner is not
finished (i.e. the remainder is nonempty). -/
def fsAbsorb : Segment → List Segment → Segment × List Segment
  | n2, [] => (n2, [])
  | n2, c :: cs => if n2.len < runThreshold then fsAbsorb c cs else (n2, c :: cs)

/-- One call of `FuseSegments.next`: returns the next fused segment (or
`none` when finished) together with the updated state.  The arm for
`next1 = none, next2 = some _` is unreachable from initial states (the
Python code would crash there); it emits `none`. -/
def fsNext (s : FSState) : Option Segment × FSState :=
  match s.next1, s.next2 with
  | curr, none => (curr, ⟨none, s.next2, s.rest⟩)
  | none, some n2 => (none, ⟨none, some n2, s.rest⟩)
  | some n1, some n2 =>
    if n1.len < runThreshold ∧ n2.len < runThreshold then
      let start := n1.start
      let a := fsAbsorb n2 s.rest
      if a.1.len < runThreshold then
        (some ⟨start, a.1.end_, Unsorted⟩, ⟨none, none, a.2⟩)
      else
        let p := fsPull a.2
        (some ⟨start, a.1.start, Unsorted⟩, ⟨some a.1, p.1, p.2⟩)
    else
      let p := fsPull s.rest
      (some n1, ⟨some n2, p.1, p.2⟩)

/-- `FuseSegments.finished()`: there is no current segment. -/
def fsFinished (s : FSState) : Bool := s.next1.isNone

/-- Materialization of the `FuseSegments` stream with the given fuel. -/
def fsList : Nat → FSState → List Segment
  | 0, _ => []
  | f + 1, s =>
    match fsNext s with
    | (none, _) => []
    | (some seg, s') => seg :: fsList f s'

/-- All segments emitted by `FuseSegments(IncDecRuns(L, key))`.  Each
emission strictly decreases `fsMeasure` (proved below), which starts at
most `L.length`, so fuel `L.length + 2` suffices. -/
def fsSegs (L : List α) (key : α → K) : List Segment :=
  fsList (L.length + 2) (fsInit (idrSegs L key))

/-- The block split in `segments`: for an oversized unsorted block, cut it
into `k = len // blockMin` sub-blocks at the cut points
`divs[i] = start + (len*i) // k`. -/
def splitSeg (curr : Segment) : List Segment :=
  let start := curr.start
  let n := curr.len
  let k := n / blockMin
  (List.range k).map fun i => ⟨start + n * i / k, start + n * (i + 1) / k, 0⟩

/-- `S[-1].end += 1`: extend the last accumulated segment by one. -/
def extendLast : List Segment → List Segment
  | [] => []
  | [s] => [⟨s.start, s.end_ + 1, s.tag⟩]
  | s :: rest => s :: extendLast rest

/-- The body of the `while` loop in `segments`: fold a trailing length-1
segment into the previous one (when the accumulator is nonempty and the
fuser is not finished), append a run or a small fused block unchanged, and
split an oversized unsorted block. -/
def segStep (S : List Segment) (curr : Segment) (finished : Bool) : List Segment :=
  if curr.len = 1 ∧ S ≠ [] ∧ finished = false then extendLast S
  else if curr.tag ≠ Unsorted ∨ curr.len ≤ blockMax then S ++ [curr]
  else S ++ splitSeg curr

/-- The `while curr:` loop of `segments`, driven by `fsNext`. -/
def segLoop : Nat → List Segment → FSState → List Segment
  | 0, S, _ => S
  | f + 1, S, s =>
    match fsNext s with
    | (none, _) => S
    | (some curr, s') => segLoop f (segStep S curr (fsFinished s')) s'

end Segmentation

/-- `segments(L)`: split the list into manageable segments.  Note that the
Python code constructs `IncDecRuns(L)` without passing the key, so the run
scan always uses the identity key (the natural order on the elements). -/
def segments {α : Type} [LinearOrder α] [Inhabited α] (L : List α) : List Segment :=
  segLoop (L.length + 2) [] (fsInit (idrSegs L (fun x => x)))

section Normalize

variable {α : Type} {K : Type} [LinearOrder K] [Inhabited α]

/-- The inner `while` loop of `insertSort` for one item: shift elements
with larger key one slot right, then place the item.  The index `jp1`
stands for `j + 1` of the Python code; the fuel argument is exactly
`jp1 - start`, so fuel `0` coincides with the bound check `j >= start`. -/
def insertInnerAux (key : α → K) (item : α) : Nat → List α → Nat → List α
  | 0, Lc, jp1 => Lc.set jp1 item
  | f + 1, Lc, jp1 =>
    if key (Lc.getD (jp1 - 1) default) > key item then
      insertInnerAux key item f (Lc.set jp1 (Lc.getD (jp1 - 1) default)) (jp1 - 1)
    else Lc.set jp1 item

/-- The outer `for i in range(start, end)` loop of `insertSort`; the fuel
argument counts the remaining iterations `end - i`. -/
def insertSortAux (key : α → K) (start : Nat) : Nat → List α → Nat → List α
  | 0, Lc, _ => Lc
  | f + 1, Lc, i =>
    insertSortAux key start f (insertInnerAux key (Lc.getD i default) (i - start) Lc i) (i + 1)

/-- `insertSort(L, start, end, key)`: insertion sort of the index range
`[start, end)` in place. -/
def insertSort (Lc : List α) (start end_ : Nat) (key : α → K) : List α :=
  insertSortAux key start (end_ - start) Lc start

/-- `reverse(L, start, end)`: `L[start:end] = reversed(L[start:end])`. -/
def reverse (Lc : List α) (start end_ : Nat) : List α :=
  Lc.take start ++ ((Lc.drop start).take (end_ - start)).reverse ++ Lc.drop end_

/-- `processSegments(L, segs, key)`: insertion-sort unsorted segments and
reverse decreasing ones, in segment order. -/
def processSegments (Lc : List α) (segs : List Segment) (key : α → K) : List α :=
  segs.foldl
    (fun acc seg =>
      if seg.tag = Unsorted then insertSort acc seg.start seg.end_ key
      else if seg.tag = Dec then reverse acc seg.start seg.end_
      else acc)
    Lc

end Normalize

/-- Run-time failures of the merge phase: `typeError` is Python's
`TypeError` from comparing `None` with a value, `indexError` an
out-of-range list access, `fuelOut` exhaustion of iteration fuel (never
reached on the concrete inputs evaluated below). -/
inductive Err where
  | typeError
  | indexError
  | fuelOut
deriving DecidableEq, Repr

section MergePhase

variable {α : Type} {K : Type} [LinearOrder K]

/-- Read a buffer cell; out of range is an `IndexError`. -/
def readCell (Lc : List (Option α)) (i : Nat) : Except Err (Option α) :=
  match Lc.get? i with
  | some v => Except.ok v
  | none => Except.error Err.indexError

/-- Write a buffer cell; out of range is an `IndexError`. -/
def writeCell (M : List (Option α)) (i : Nat) (v : Option α) : Except Err (List (Option α)) :=
  if i < M.length then Except.ok (M.set i v) else Except.error Err.indexError

/-- Compare two buffer cells under the key; if either is uninitialized
(`none`), Python raises `TypeError`. -/
def cmpLe (key : α → K) (a b : Option α) : Except Err Bool :=
  match a, b with
  | some x, some y => Except.ok (decide (key x ≤ key y))
  | _, _ => Except.error Err.typeError

/-- The first `while` loop of `mergeSegments`: two-pointer merge while both
segments have remaining elements; returns the buffer and the final
`i, j, k, size`. -/
def mergeLoop1 (key : α → K) (Lc : List (Option α)) (seg1 seg2 : Segment) (start : Nat) :
    Nat → Nat → Nat → Nat → Nat → List (Option α) →
    Except Err (List (Option α) × Nat × Nat × Nat × Nat)
  | 0, i, j, k, size, M =>
    if i < seg1.len ∧ j < seg2.len then Except.error Err.fuelOut
    else Except.ok (M, i, j, k, size)
  | f + 1, i, j, k, size, M =>
    if i < seg1.len ∧ j < seg2.len then do
      let a ← readCell Lc (seg1.start + i)
      let b ← readCell Lc (seg2.start + j)
      let c ← cmpLe key a b
      if c = true then do
        let M1 ← writeCell M (start + k) a
        mergeLoop1 key Lc seg1 seg2 start f (i + 1) j (k + 1) (size + 1) M1
      else do
        let M1 ← writeCell M (start + k) b
        mergeLoop1 key Lc seg1 seg2 start f i (j + 1) (k + 1) (size + 1) M1
    else Except.ok (M, i, j, k, size)

/-- The second `while` loop of `mergeSegments`: drain the remainder of
`seg1`; the fuel is exactly `seg1.len - i`. -/
def mergeLoop2 (Lc : List (Option α)) (seg1 : Segment) (start : Nat) :
    Nat → Nat → Nat → Nat → List (Option α) → Except Err (List (Option α) × Nat × Nat)
  | 0, _, k, size, M => Except.ok (M, k, size)
  | f + 1, i, k, size, M => do
    let a ← readCell Lc (seg1.start + i)
    let M1 ← writeCell M (start + k) a
    mergeLoop2 Lc seg1 start f (i + 1) (k + 1) (size + 1) M1

/-- `mergeSegments(L, seg1, seg2, M, start, key)`: merge the two index
ranges of `L` into `M` starting at offset `start`; returns the updated
buffer and the written size. -/
def mergeSegments (key : α → K) (Lc : List (Option α)) (seg1 seg2 : Segment)
    (M : List (Option α)) (start : Nat) : Except Err (List (Option α) × Nat) := do
  let r1 ← mergeLoop1 key Lc seg1 seg2 start (seg1.len + seg2.len) 0 0 0 0 M
  match r1 with
  | (M1, i, j, k, size) => do
    let r2 ← mergeLoop2 Lc seg1 start (seg1.len - i) i k size M1
    match r2 with
    | (M2, k2, size2) => do
      let r3 ← mergeLoop2 Lc seg2 start (seg2.len - j) j k2 size2 M2
      match r3 with
      | (M3, _, size3) => Except.ok (M3, size3)

/-- The loop of `copySegment`: copy `seg.len` cells from `L` to `M`. -/
def copySegLoop (Lc : List (Option α)) (seg : Segment) (start : Nat) :
    Nat → Nat → List (Option α) → Except Err (List (Option α))
  | 0, _, M => Except.ok M
  | f + 1, i, M => do
    let a ← readCell Lc (seg.start + i)
    let M1 ← writeCell M (start + i) a
    copySegLoop Lc seg start f (i + 1) M1

/-- `copySegment(L, seg, M, start)`: copy a segment from `L` to `M` and
return the updated buffer together with `seg.len`. -/
def copySegment (Lc : List (Option α)) (seg : Segment) (M : List (Option α)) (start : Nat) :
    Except Err (List (Option α) × Nat) := do
  let M1 ← copySegLoop Lc seg start seg.len 0 M
  Except.ok (M1, seg.len)

/-- `segs[i]` with Python's `IndexError` on a bad index. -/
def getSeg (segs : List Segment) (i : Nat) : Except Err Segment :=
  match segs.get? i with
  | some s => Except.ok s
  | none => Except.error Err.indexError

/-- The `while i < len(segs) - 1` loop of `mergeRound` (with the trailing
odd-segment copy).  Note the faithfully reproduced offsets: each pair is
merged into `M` at offset `len(mergedSegs)` and the odd leftover segment is
copied at offset `len(mergedSegs) - 1` after appending it — both are
segment counts, not element positions. -/
def mergeRoundAux (key : α → K) (Lc : List (Option α)) (segs : List Segment) :
    Nat → Nat → List Segment → List (Option α) → Except Err (List Segment × List (Option α))
  | 0, _, _, _ => Except.error Err.fuelOut
  | f + 1, i, mergedSegs, M =>
    if i < segs.length - 1 then do
      let s1 : Segment ← getSeg segs i
      let s2 : Segment ← getSeg segs (i + 1)
      let r ← mergeSegments key Lc s1 s2 M mergedSegs.length
      mergeRoundAux key Lc segs f (i + 2) (mergedSegs ++ [⟨s1.start, s2.end_, Inc⟩]) r.1
    else
      if segs.length % 2 = 1 then do
        let last : Segment ← getSeg segs (segs.length - 1)
        let merged2 := mergedSegs ++ [last]
        let r ← copySegment Lc last M (merged2.length - 1)
        Except.ok (merged2, r.1)
      else Except.ok (mergedSegs, M)

/-- `mergeRound(L, segs, M, key)`: one round of pairwise merging. -/
def mergeRound (key : α → K) (Lc : List (Option α)) (segs : List Segment)
    (M : List (Option α)) : Except Err (List Segment × List (Option α)) :=
  mergeRoundAux key Lc segs (segs.length + 1) 0 [] M

/-- `mergeRounds(L, segs, M, key)`: merge rounds until one segment remains;
the buffer swap `L[:], M[:] = M[:], L[:]` becomes the exchange of the two
buffer arguments in the recursive call. -/
def mergeRounds (key : α → K) :
    Nat → List (Option α) → List Segment → List (Option α) → Except Err (List (Option α))
  | 0, Lc, segs, _ => if segs.length > 1 then Except.error Err.fuelOut else Except.ok Lc
  | f + 1, Lc, segs, M =>
    if segs.length > 1 then do
      let r ← mergeRound key Lc segs M
      mergeRounds key f r.2 r.1 Lc
    else Except.ok Lc

end MergePhase

/-- `SimpleTimSort(L, key)`: the main entry point.  The original sequence
is mutated and (with the alternating buffer swaps) the final contents may
contain uninitialized cells, so the result is a list of `Option α` in
`Except Err`. -/
def SimpleTimSort {α : Type} {K : Type} [LinearOrder α] [LinearOrder K] [Inhabited α]
    (L : List α) (key : α → K) : Except Err (List (Option α)) :=
  if L.length ≤ 1 then Except.ok (L.map some)
  else
    let segs := segments L
    let L1 := processSegments L segs key
    let M : List (Option α) := List.replicate L.length none
    mergeRounds key (L.length + 1) (L1.map some) segs M

/-- Decidable equality of `Except` results, used to evaluate the merge
phase on concrete inputs. -/
instance {ε β : Type} [DecidableEq ε] [DecidableEq β] : DecidableEq (Except ε β) := fun x y =>
  match x, y with
  | Except.error a, Except.error b =>
    decidable_of_iff (a = b) ⟨congrArg Except.error, Except.error.inj⟩
  | Except.ok a, Except.ok b =>
    decidable_of_iff (a = b) ⟨congrArg Except.ok, Except.ok.inj⟩
  | Except.error _, Except.ok _ => isFalse fun h => Except.noConfusion h
  | Except.ok _, Except.error _ => isFalse fun h => Except.noConfusion h

/-! ### Property checkers -/

section Checkers

variable {α : Type} {K : Type} [LinearOrder K] [Inhabited α]

/-- `chainB nn pos segs`: the segments tile the index range `[pos, nn)`
contiguously, without gaps or overlaps, and none of them is empty. -/
def chainB (nn : Nat) : Nat → List Segment → Bool
  | pos, [] => pos == nn
  | pos, s :: rest => s.start == pos && decide (pos < s.end_) && chainB nn s.end_ rest

/-- `monoB L key dir a b`: the direction relation `relB` holds at every
position in `[a, b)`; for `dir = Inc` this says `key(L[p]) ≤ key(L[p+1])`
for all `a ≤ p < b`, for `dir = Dec` the reverse inequality. -/
def monoB (L : List α) (key : α → K) (dir : Int) (a b : Nat) : Bool :=
  (List.range' a (b - a)).all fun p => relB L key dir p

/-- `sortedB key l`: the list is non-decreasing under the key. -/
def sortedB (key : α → K) : List α → Bool
  | a :: b :: t => decide (key a ≤ key b) && sortedB key (b :: t)
  | _ => true

/-- `sortedOptB key l`: the list of cells is fully initialized and
non-decreasing under the key. -/
def sortedOptB (key : α → K) : List (Option α) → Bool
  | [] => true
  | [some _] => true
  | some a :: some b :: t => decide (key a ≤ key b) && sortedOptB key (some b :: t)
  | _ => false

end Checkers

/-! ### Concrete inputs used in the refutations -/

/-- Three copies of `0..32`: after segmentation this is exactly the three
increasing segments `[0,33), [33,66), [66,99)`. -/
def L99 : List Nat := List.range 33 ++ List.range 33 ++ List.range 33

/-- `0..32, 0..32, 9`: segments `[0,33), [33,65), [65,67)`, the last one
decreasing. -/
def L67 : List Nat := List.range 33 ++ List.range 33 ++ [9]

/-- A variant of `L67` with a different trailing element. -/
def L67b : List Nat := List.range 33 ++ List.range 33 ++ [7]

/-- `L67` after normalization by `processSegments`, lifted to buffer cells:
the input of the first merge round. -/
def L67norm : List (Option Nat) :=
  (processSegments L67 (segments L67) (fun x => x)).map some

/-- `n` repetitions of `1, 0`: for `n = 35` the run scan yields 69 short
runs which fuse into the single unsorted block `[0, 70)`. -/
def zigzag : Nat → List Nat
  | 0 => []
  | n + 1 => 1 :: 0 :: zigzag n

/-! ### Invariants used in the proofs -/

/-- The one-or-zero element list held by an `Option Segment`. -/
def optList : Option Segment → List Segment
  | none => []
  | some s => [s]

/-- All segments still held by a `FuseSegments` state: the two lookahead
slots followed by the unread remainder. -/
def fsElems (s : FSState) : List Segment :=
  optList s.next1 ++ optList s.next2 ++ s.rest

/-- Termination measure of the fuser: number of occupied lookahead slots
plus length of the remainder.  Every emission strictly decreases it. -/
def fsMeasure (s : FSState) : Nat :=
  (optList s.next1).length + (optList s.next2).length + s.rest.length

/-- Reachability invariant of `IncDecRuns` states: the direction is `Inc`
or `Dec`, and either the scan is finished (`j = m`) or the direction
relation holds at the current position (true initially by choice of the
direction, and after each flip because the opposite relation just
failed). -/
def GoodS {α : Type} {K : Type} [LinearOrder K] [Inhabited α]
    (L : List α) (key : α → K) (s : IDRState) : Prop :=
  (s.dir = Inc ∨ s.dir = Dec) ∧
  (s.j = L.length - 1 ∨ (s.j < L.length - 1 ∧ relB L key s.dir s.j = true))

/-- Reachability invariant of `FuseSegments` states, relative to the
position `pos` already covered by earlier emissions: the held segments
tile `[pos, n)`, and the lookahead slots empty out from the back. -/
def FSInv (n pos : Nat) (s : FSState) : Prop :=
  chainB n pos (fsElems s) = true ∧
  (s.next1 = none → s.next2 = none ∧ s.rest = []) ∧
  (s.next2 = none → s.rest = [])

/-- After the fuser emits an unsorted block, its `next1` slot is either
empty or holds a segment of length at least `runThreshold`. -/
def nextOk (s : FSState) : Prop :=
  s.next1 = none ∨ ∃ a, s.next1 = some a ∧ runThreshold ≤ a.len

/-!
### Refutations: the merge-offset bug and the lost key

Two independent defects of the source are exercised below.

* `segments(L)` constructs `IncDecRuns(L)` without forwarding the key, so
  run directions are decided by the natural order of the elements while
  normalization and merging use the caller's key.  For the order-reversing
  key `x ↦ -x` the two-element list `[0, 1]` is classified as one
  increasing run, left untouched by `processSegments`, and returned
  unsorted (`C1`, `C6`, `C9`).

* `mergeRound` passes `len(mergedSegs)` — a count of segments — as the
  write offset into the auxiliary buffer, instead of the number of
  elements already written, and likewise copies the odd leftover segment
  at offset `len(mergedSegs) - 1`.  With two segments the only write
  offset is `0` and the bug is invisible, but with three or more segments
  the round leaves a suffix of the buffer uninitialized and overwrites the
  beginning; the following round then compares an uninitialized cell and
  fails with a `TypeError` (`C2`, `C3`, `C4`).
-/

/-- Claim C1 is false of the code: for the pure, totally ordered key
`x ↦ -x`, `SimpleTimSort [0, 1]` returns `[0, 1]`, which is not sorted
under the key (the run scan inside `segments` ignores the key). -/
theorem C1_unsorted_result :
    SimpleTimSort [(0 : Int), 1] (fun x => -x) = Except.ok [some 0, some 1] ∧
    sortedOptB (fun x : Int => -x) [some 0, some 1] = false := by
  decide

set_option maxRecDepth 200000 in
/-- Claim C2 is false of the code: on `L99` (three increasing segments
after normalization) `SimpleTimSort` raises a `TypeError` instead of
returning a permutation of the input, because the second merge round
compares an uninitialized buffer cell. -/
theorem C2_no_result :
    SimpleTimSort L99 (fun x : Nat => x) = Except.error Err.typeError := by
  decide

set_option maxRecDepth 200000 in
/-- Claim C3 is false of the code: in the merge round over the three
normalized segments `[0,33), [33,65), [65,67)` of `L67` the round's writes
do not tile a prefix of the buffer.  Cell 65 — which the claim requires to
be written, since 67 elements of output must tile `[0, 67)` — is still
uninitialized after the round, while cell 1 holds the element `9` copied
from the odd leftover segment at offset `len(mergedSegs) - 1 = 1`,
overlapping the first pair's output. -/
theorem C3_round_not_tiling :
    (mergeRound (fun x : Nat => x) L67norm (segments L67)
        (List.replicate 67 none)).map
      (fun r => (r.2.getD 65 (some 0), r.2.getD 1 (some 0))) =
    Except.ok ((none : Option Nat), some 9) := by
  decide

set_option maxRecDepth 200000 in
/-- Claim C4 is false of the code: on `L67b` the sort terminates with a
`TypeError` (a comparison against an uninitialized auxiliary-buffer cell)
rather than returning a result. -/
theorem C4_raises :
    SimpleTimSort L67b (fun x : Nat => x) = Except.error Err.typeError := by
  decide

/-- Claim C6 is false of the code: with key `x ↦ -x` the segmentation of
`[0, 1]` yields the single segment `[0, 2)` tagged increasing (the key is
not forwarded into the run scan), `processSegments` leaves it untouched,
and the segment is not internally sorted ascending under the key. -/
theorem C6_segment_not_sorted :
    segments [(0 : Int), 1] = [⟨0, 2, Inc⟩] ∧
    processSegments [(0 : Int), 1] [⟨0, 2, Inc⟩] (fun x => -x) = [0, 1] ∧
    sortedB (fun x : Int => -x) [0, 1] = false := by
  decide

/-- Claim C9 is false of the code: `[1, 0]` is sorted under the key
`x ↦ -x`, yet `SimpleTimSort` returns `[0, 1]` — the decreasing-tagged run
(classified under the ignored identity order) is reversed, so the result
is not pointwise equal to the input. -/
theorem C9_not_idempotent :
    sortedB (fun x : Int => -x) [1, 0] = true ∧
    SimpleTimSort [(1 : Int), 0] (fun x => -x) = Except.ok [some 0, some 1] ∧
    List.map some [(1 : Int), 0] ≠ [some 0, some 1] := by
  decide

/-- Claim C7 as stated is false: on `[1, 2, 3, 2, 1]` the scanner emits the
segment `[0, 2)` tagged increasing, but that segment can be extended by
the adjacent element at index 2 while remaining non-decreasing
(`monoB … Inc 0 2` checks `L[0] ≤ L[1]` and `L[1] ≤ L[2]`, the internal
pairs of the extended segment `[0, 3)`), so the emitted runs are not
maximal. -/
theorem C7_not_maximal :
    idrSegs [1, 2, 3, 2, 1] (fun x : Nat => x) = [⟨0, 2, Inc⟩, ⟨2, 5, Dec⟩] ∧
    monoB [1, 2, 3, 2, 1] (fun x : Nat => x) Inc 0 2 = true := by
  decide


/-!
### Basic facts about the checkers
-/

theorem chainB_cons_iff {nn pos : Nat} {s : Segment} {rest : List Segment} :
    chainB nn pos (s :: rest) = true ↔
      s.start = pos ∧ pos < s.end_ ∧ chainB nn s.end_ rest = true := by
  simp [chainB, Bool.and_eq_true, and_assoc]

theorem chainB_nil_iff {nn pos : Nat} : chainB nn pos ([] : List Segment) = true ↔ pos = nn := by
  simp [chainB]

theorem chainB_append {a b c : Nat} :
    ∀ {S T : List Segment}, chainB b a S = true → chainB c b T = true →
      chainB c a (S ++ T) = true := by
  intro S
  induction S generalizing a with
  | nil =>
    intro T hS hT
    rw [chainB_nil_iff] at hS
    simpa [hS] using hT
  | cons s S ih =>
    intro T hS hT
    rw [chainB_cons_iff] at hS
    exact chainB_cons_iff.mpr ⟨hS.1, hS.2.1, ih hS.2.2 hT⟩

theorem chainB_bounds {nn : Nat} :
    ∀ {l : List Segment} {pos : Nat}, chainB nn pos l = true →
      ∀ s ∈ l, pos ≤ s.start ∧ s.start < s.end_ ∧ s.end_ ≤ nn := by
  intro l
  induction l with
  | nil => intro pos _ s hs; cases hs
  | cons a l ih =>
    intro pos h s hs
    rw [chainB_cons_iff] at h
    rcases List.mem_cons.mp hs with hs | hs
    · subst hs
      refine ⟨h.1.ge, ?_, ?_⟩
      · omega
      · cases l with
        | nil =>
          rw [chainB_nil_iff] at h
          omega
        | cons b l2 =>
          have := (ih h.2.2) b (List.mem_cons_self b l2)
          omega
    · have := ih h.2.2 s hs
      omega

theorem monoB_iff {α K : Type} [LinearOrder K] [Inhabited α]
    {L : List α} {key : α → K} {dir : Int} {a b : Nat} :
    monoB L key dir a b = true ↔ ∀ p, a ≤ p → p < b → relB L key dir p = true := by
  unfold monoB
  rw [List.all_eq_true]
  constructor
  · intro h p h1 h2
    exact h p (List.mem_range'_1.mpr ⟨h1, by omega⟩)
  · intro h p hp
    have := List.mem_range'_1.mp hp
    exact h p this.1 (by omega)

theorem monoB_anti {α K : Type} [LinearOrder K] [Inhabited α]
    {L : List α} {key : α → K} {dir : Int} {a b b' : Nat} (h : b' ≤ b)
    (hm : monoB L key dir a b = true) : monoB L key dir a b' = true := by
  rw [monoB_iff] at hm ⊢
  intro p h1 h2
  exact hm p h1 (by omega)

/-!
### The scanning loop of `IncDecRuns.next`
-/

section ScanLemmas

variable {α K : Type} [LinearOrder K] [Inhabited α] (L : List α) (key : α → K) (dir : Int)

theorem idrScanAux_ge : ∀ (f j : Nat), j ≤ idrScanAux L key dir j f := by
  intro f
  induction f with
  | zero => intro j; simp [idrScanAux]
  | succ f ih =>
    intro j
    simp only [idrScanAux]
    split
    · exact (Nat.le_succ j).trans (ih (j + 1))
    · exact Nat.le_refl j

theorem idrScanAux_le : ∀ (f j : Nat), idrScanAux L key dir j f ≤ j + f := by
  intro f
  induction f with
  | zero => intro j; simp [idrScanAux]
  | succ f ih =>
    intro j
    simp only [idrScanAux]
    split
    · have := ih (j + 1); omega
    · omega

theorem idrScanAux_rel : ∀ (f j p : Nat), j ≤ p → p < idrScanAux L key dir j f →
    relB L key dir p = true := by
  intro f
  induction f with
  | zero => intro j p h1 h2; simp [idrScanAux] at h2; omega
  | succ f ih =>
    intro j p h1 h2
    simp only [idrScanAux] at h2
    by_cases hr : relB L key dir j = true
    · rw [if_pos hr] at h2
      rcases Nat.eq_or_lt_of_le h1 with h | h
      · exact h ▸ hr
      · exact ih (j + 1) p h h2
    · rw [if_neg hr] at h2; omega

theorem idrScanAux_stop : ∀ (f j : Nat), idrScanAux L key dir j f < j + f →
    relB L key dir (idrScanAux L key dir j f) = false := by
  intro f
  induction f with
  | zero => intro j h; simp [idrScanAux] at h
  | succ f ih =>
    intro j h
    simp only [idrScanAux] at h ⊢
    by_cases hr : relB L key dir j = true
    · rw [if_pos hr] at h ⊢
      exact ih (j + 1) (by omega)
    · rw [if_neg hr] at h ⊢
      exact Bool.not_eq_true _ ▸ (Bool.eq_false_iff.mpr hr)

theorem idrScanAux_progress : ∀ (f j : Nat), 0 < f → relB L key dir j = true →
    j < idrScanAux L key dir j f := by
  intro f j hf hr
  cases f with
  | zero => omega
  | succ f =>
    simp only [idrScanAux, if_pos hr]
    have := idrScanAux_ge L key dir f (j + 1)
    omega

theorem idrScan_ge (j : Nat) : j ≤ idrScan L key dir j :=
  idrScanAux_ge L key dir _ j

theorem idrScan_le_m {j : Nat} (h : j ≤ L.length - 1) :
    idrScan L key dir j ≤ L.length - 1 := by
  have := idrScanAux_le L key dir (L.length - 1 - j) j
  unfold idrScan
  omega

theorem idrScan_rel {j : Nat} (p : Nat) (h1 : j ≤ p) (h2 : p < idrScan L key dir j) :
    relB L key dir p = true :=
  idrScanAux_rel L key dir _ j p h1 h2

theorem idrScan_stop {j : Nat} (h : j ≤ L.length - 1)
    (h2 : idrScan L key dir j < L.length - 1) :
    relB L key dir (idrScan L key dir j) = false := by
  apply idrScanAux_stop
  unfold idrScan at h2
  omega

theorem idrScan_progress {j : Nat} (h : j < L.length - 1) (hr : relB L key dir j = true) :
    j < idrScan L key dir j :=
  idrScanAux_progress L key dir _ j (by omega) hr

end ScanLemmas

theorem relB_flip {α K : Type} [LinearOrder K] [Inhabited α] (L : List α) (key : α → K)
    {dir : Int} (hd : dir = Inc ∨ dir = Dec) {p : Nat}
    (h : relB L key dir p = false) : relB L key (-dir) p = true := by
  rcases hd with h1 | h1 <;> subst h1 <;>
    simp [relB, Inc, Dec] at h ⊢ <;>
    exact h.le

theorem idrInit_good {α K : Type} [LinearOrder K] [Inhabited α] (L : List α) (key : α → K)
    (hn : 2 ≤ L.length) : GoodS L key (idrInit L key) := by
  unfold GoodS idrInit
  dsimp
  constructor
  · split
    · exact Or.inl rfl
    · exact Or.inr rfl
  · right
    refine ⟨by omega, ?_⟩
    split
    · next hc => simpa [relB, Inc, Dec] using hc
    · next hc =>
        rw [ge_iff_le, not_le] at hc
        simpa [relB, Inc, Dec] using hc.le

theorem idrNext_none {α K : Type} [LinearOrder K] [Inhabited α] (L : List α) (key : α → K)
    (s : IDRState) (h : s.j = L.length - 1) : idrNext L key s = (none, s) := by
  simp only [idrNext]
  rw [if_pos h]

theorem idrList_exhausted {α K : Type} [LinearOrder K] [Inhabited α] (L : List α) (key : α → K) :
    ∀ (f : Nat) (s : IDRState), s.j = L.length - 1 → idrList L key f s = [] := by
  intro f s h
  cases f with
  | zero => rfl
  | succ f => simp only [idrList, idrNext_none L key s h]

theorem idrList_step {α K : Type} [LinearOrder K] [Inhabited α] (L : List α) (key : α → K)
    (f : Nat) (s : IDRState) (h : s.j ≠ L.length - 1) :
    idrList L key (f + 1) s =
      if idrScan L key s.dir s.j = L.length - 1 then
        (⟨s.j, L.length - 1 + 1, s.dir⟩ : Segment) ::
          idrList L key f ⟨s.dir, s.j, idrScan L key s.dir s.j⟩
      else
        (⟨s.j, idrScan L key s.dir s.j, s.dir⟩ : Segment) ::
          idrList L key f ⟨-s.dir, s.j, idrScan L key s.dir s.j⟩ := by
  by_cases hj : idrScan L key s.dir s.j = L.length - 1
  · rw [if_pos hj]
    have hstep : idrNext L key s =
        (some ⟨s.j, L.length - 1 + 1, s.dir⟩, ⟨s.dir, s.j, idrScan L key s.dir s.j⟩) := by
      simp only [idrNext]
      rw [if_neg h, if_pos hj]
    simp only [idrList, hstep]
  · rw [if_neg hj]
    have hstep : idrNext L key s =
        (some ⟨s.j, idrScan L key s.dir s.j, s.dir⟩, ⟨-s.dir, s.j, idrScan L key s.dir s.j⟩) := by
      simp only [idrNext]
      rw [if_neg h, if_neg hj]
    simp only [idrList, hstep]

theorem idrList_spec {α K : Type} [LinearOrder K] [Inhabited α] (L : List α) (key : α → K) :
    ∀ (f : Nat) (s : IDRState), GoodS L key s → s.j < L.length - 1 → L.length - 1 - s.j ≤ f →
      chainB L.length s.j (idrList L key f s) = true ∧
      ∀ seg ∈ idrList L key f s,
        (seg.tag = Inc ∨ seg.tag = Dec) ∧
        monoB L key seg.tag seg.start (min seg.end_ (L.length - 1)) = true := by
  intro f
  induction f with
  | zero => intro s _ h1 h2; omega
  | succ f ih =>
    intro s hg hlt hfuel
    have hne : s.j ≠ L.length - 1 := by omega
    have hrel : relB L key s.dir s.j = true := by
      rcases hg.2 with h | h
      · omega
      · exact h.2
    have hprog : s.j < idrScan L key s.dir s.j := idrScan_progress L key s.dir hlt hrel
    have hle : idrScan L key s.dir s.j ≤ L.length - 1 := idrScan_le_m L key s.dir (by omega)
    have hscanrel : ∀ p, s.j ≤ p → p < idrScan L key s.dir s.j → relB L key s.dir p = true :=
      fun p h1 h2 => idrScan_rel L key s.dir p h1 h2
    rw [idrList_step L key f s hne]
    by_cases hj : idrScan L key s.dir s.j = L.length - 1
    · rw [if_pos hj]
      rw [idrList_exhausted L key f ⟨s.dir, s.j, idrScan L key s.dir s.j⟩ hj]
      constructor
      · rw [chainB_cons_iff]
        refine ⟨rfl, ?_, ?_⟩
        · show s.j < L.length - 1 + 1
          omega
        · rw [chainB_nil_iff]
          show L.length - 1 + 1 = L.length
          omega
      · intro seg hseg
        rcases List.mem_cons.mp hseg with h | h
        · subst h
          dsimp
          refine ⟨hg.1, ?_⟩
          have hmin : min (L.length - 1 + 1) (L.length - 1) = L.length - 1 := by omega
          rw [hmin, monoB_iff]
          intro p h1 h2
          exact hscanrel p h1 (by omega)
        · cases h
    · rw [if_neg hj]
      have hgood2 : GoodS L key ⟨-s.dir, s.j, idrScan L key s.dir s.j⟩ := by
        unfold GoodS
        dsimp
        refine ⟨?_, Or.inr ⟨by omega, ?_⟩⟩
        · rcases hg.1 with h | h <;> rw [h]
          · right; decide
          · left; decide
        · exact relB_flip L key hg.1
            (idrScan_stop L key s.dir (by omega) (by omega))
      obtain ⟨ihc, ihm⟩ := ih ⟨-s.dir, s.j, idrScan L key s.dir s.j⟩ hgood2
        (by show idrScan L key s.dir s.j < L.length - 1; omega)
        (by show L.length - 1 - idrScan L key s.dir s.j ≤ f; omega)
      constructor
      · rw [chainB_cons_iff]
        refine ⟨rfl, ?_, ihc⟩
        show s.j < idrScan L key s.dir s.j
        omega
      · intro seg hseg
        rcases List.mem_cons.mp hseg with h | h
        · subst h
          dsimp
          refine ⟨hg.1, ?_⟩
          have hmin : min (idrScan L key s.dir s.j) (L.length - 1) = idrScan L key s.dir s.j := by
            omega
          rw [hmin, monoB_iff]
          intro p h1 h2
          exact hscanrel p h1 h2
        · exact ihm seg h

/-!
### The fuser: measure, invariants, emissions
-/

theorem idrList_length_le {α K : Type} [LinearOrder K] [Inhabited α]
    (L : List α) (key : α → K) : ∀ (f : Nat) (s : IDRState), (idrList L key f s).length ≤ f := by
  intro f
  induction f with
  | zero => intro s; simp [idrList]
  | succ f ih =>
    intro s
    rw [idrList]
    cases h : idrNext L key s with
    | mk o s2 =>
      cases o with
      | none => simp
      | some seg => simpa using ih s2

theorem fsPull_optLen (l : List Segment) :
    (optList (fsPull l).1).length + (fsPull l).2.length = l.length := by
  cases l with
  | nil => simp [fsPull, optList]
  | cons c cs => simp [fsPull, optList]; omega

theorem fsPull_mem (l : List Segment) :
    ∀ a ∈ optList (fsPull l).1 ++ (fsPull l).2, a ∈ l := by
  cases l <;> simp [fsPull, optList]

theorem fsAbsorb_rest_le : ∀ (rest : List Segment) (n2 : Segment),
    (fsAbsorb n2 rest).2.length ≤ rest.length := by
  intro rest
  induction rest with
  | nil => intro n2; simp [fsAbsorb]
  | cons c cs ih =>
    intro n2
    rw [fsAbsorb]
    split
    · exact (ih c).trans (by simp)
    · simp

theorem fsAbsorb_spec {nn : Nat} : ∀ (rest : List Segment) (n2 : Segment) (pos : Nat),
    chainB nn pos (n2 :: rest) = true →
    pos ≤ (fsAbsorb n2 rest).1.start ∧
    chainB nn (fsAbsorb n2 rest).1.start ((fsAbsorb n2 rest).1 :: (fsAbsorb n2 rest).2) = true ∧
    ((fsAbsorb n2 rest).1.len < runThreshold → (fsAbsorb n2 rest).2 = []) ∧
    (∀ a ∈ (fsAbsorb n2 rest).1 :: (fsAbsorb n2 rest).2, a ∈ n2 :: rest) := by
  intro rest
  induction rest with
  | nil =>
    intro n2 pos h
    have hc := chainB_cons_iff.mp h
    simp only [fsAbsorb]
    refine ⟨hc.1.ge, ?_, fun _ => trivial, fun a ha => ha⟩
    rw [chainB_cons_iff]
    exact ⟨rfl, by omega, hc.2.2⟩
  | cons c cs ih =>
    intro n2 pos h
    have hc := chainB_cons_iff.mp h
    rw [fsAbsorb]
    split
    · have := ih c n2.end_ hc.2.2
      refine ⟨by omega, this.2.1, this.2.2.1, ?_⟩
      intro a ha
      have := this.2.2.2 a ha
      simp only [List.mem_cons] at this ⊢
      tauto
    · dsimp only
      refine ⟨hc.1.ge, ?_, ?_, fun a ha => ha⟩
      · rw [chainB_cons_iff]
        exact ⟨rfl, by omega, hc.2.2⟩
      · intro hlt
        next hcond => exact absurd hlt hcond

theorem optList_none : optList none = [] := rfl

theorem optList_some (a : Segment) : optList (some a) = [a] := rfl

theorem fsNext_measure : ∀ (s s2 : FSState) (e : Segment),
    fsNext s = (some e, s2) → fsMeasure s2 < fsMeasure s := by
  intro s s2 e h
  obtain ⟨n1, n2, rest⟩ := s
  cases n2 with
  | none =>
    cases n1 with
    | none => simp [fsNext] at h
    | some a =>
      simp only [fsNext] at h
      rw [Prod.mk.injEq] at h
      obtain ⟨h1, h2⟩ := h
      subst h2
      simp [fsMeasure, optList]
  | some b =>
    cases n1 with
    | none => simp [fsNext] at h
    | some a =>
      simp only [fsNext] at h
      split at h
      · split at h
        · rw [Prod.mk.injEq] at h
          obtain ⟨h1, h2⟩ := h
          subst h2
          have hr := fsAbsorb_rest_le rest b
          simp only [fsMeasure, optList_none, optList_some, List.length_nil, List.length_cons]
          omega
        · rw [Prod.mk.injEq] at h
          obtain ⟨h1, h2⟩ := h
          subst h2
          have h1l := fsAbsorb_rest_le rest b
          have h2l := fsPull_optLen (fsAbsorb b rest).2
          simp only [fsMeasure, optList_none, optList_some, List.length_nil, List.length_cons]
          omega
      · rw [Prod.mk.injEq] at h
        obtain ⟨h1, h2⟩ := h
        subst h2
        have h2l := fsPull_optLen rest
        simp only [fsMeasure, optList_none, optList_some, List.length_nil, List.length_cons]
        omega

theorem fsPull_flatten (l : List Segment) : optList (fsPull l).1 ++ (fsPull l).2 = l := by
  cases l <;> simp [fsPull, optList]

theorem fsPull_none {l : List Segment} (h : (fsPull l).1 = none) : l = [] := by
  cases l with
  | nil => rfl
  | cons c cs => simp [fsPull] at h

theorem fsNext_none_inv {n pos : Nat} {s s2 : FSState}
    (hinv : FSInv n pos s) (h : fsNext s = (none, s2)) : pos = n := by
  obtain ⟨hchain, h1, h2⟩ := hinv
  obtain ⟨n1, n2, rest⟩ := s
  cases n2 with
  | none =>
    cases n1 with
    | none =>
      have hrest : rest = [] := (h1 rfl).2
      subst hrest
      simp only [fsElems, optList_none, List.append_nil, List.nil_append] at hchain
      exact chainB_nil_iff.mp hchain
    | some a => simp [fsNext] at h
  | some b =>
    cases n1 with
    | none => exact absurd (h1 rfl).1 (by simp)
    | some a =>
      simp only [fsNext] at h
      split at h
      · split at h <;> simp at h
      · simp at h

theorem fsNext_emit {n pos : Nat} {s s2 : FSState} {e : Segment}
    (hinv : FSInv n pos s) (h : fsNext s = (some e, s2)) :
    e.start = pos ∧ pos < e.end_ ∧ FSInv n e.end_ s2 := by
  obtain ⟨hchain, h1, h2⟩ := hinv
  obtain ⟨n1, n2, rest⟩ := s
  cases n2 with
  | none =>
    have hrest : rest = [] := h2 rfl
    subst hrest
    cases n1 with
    | none => simp [fsNext] at h
    | some a =>
      simp only [fsNext] at h
      rw [Prod.mk.injEq] at h
      obtain ⟨he, hs⟩ := h
      injection he with he
      subst he
      subst hs
      simp only [fsElems, optList_none, optList_some, List.append_nil, List.nil_append,
        List.singleton_append, List.cons_append] at hchain
      have hc := chainB_cons_iff.mp hchain
      refine ⟨hc.1, hc.2.1, ?_, by simp, by simp⟩
      simpa [fsElems, optList_none] using hc.2.2
  | some b =>
    cases n1 with
    | none => exact absurd (h1 rfl).1 (by simp)
    | some a =>
      simp only [fsElems, optList_some, List.singleton_append, List.cons_append,
        List.nil_append] at hchain
      have hca := chainB_cons_iff.mp hchain
      have hcb := chainB_cons_iff.mp hca.2.2
      simp only [fsNext] at h
      split at h
      · have habs := fsAbsorb_spec rest b a.end_ hca.2.2
        split at h
        · -- terminal fused block: next2 still short, scanner exhausted
          rename_i hAshort
          rw [Prod.mk.injEq] at h
          obtain ⟨he, hs⟩ := h
          injection he with he
          subst he
          subst hs
          have hrest2 : (fsAbsorb b rest).2 = [] := habs.2.2.1 hAshort
          have hcf := chainB_cons_iff.mp habs.2.1
          refine ⟨hca.1, ?_, ?_, fun _ => ⟨rfl, hrest2⟩, fun _ => hrest2⟩
          · dsimp only
            omega
          · dsimp only
            simp only [fsElems, optList_none, List.append_nil, List.nil_append]
            rw [hrest2] at hcf ⊢
            exact hcf.2.2
        · -- fused block, long boundary segment kept as next1
          rename_i hAlong
          rw [Prod.mk.injEq] at h
          obtain ⟨he, hs⟩ := h
          injection he with he
          subst he
          subst hs
          have hcf := chainB_cons_iff.mp habs.2.1
          refine ⟨hca.1, ?_, ?_, by simp, ?_⟩
          · dsimp only
            omega
          · dsimp only
            simp only [fsElems, optList_some, List.singleton_append, List.cons_append]
            rw [List.append_assoc, fsPull_flatten]
            exact habs.2.1
          · intro hp
            have h0 := fsPull_none hp
            simp [h0, fsPull]
      · -- at least one of the two lookahead segments is long: emit next1
        rw [Prod.mk.injEq] at h
        obtain ⟨he, hs⟩ := h
        injection he with he
        subst he
        subst hs
        refine ⟨hca.1, hca.2.1, ?_, by simp, ?_⟩
        · simp only [fsElems, optList_some, List.singleton_append, List.cons_append]
          rw [List.append_assoc, fsPull_flatten]
          exact hca.2.2
        · intro hp
          have h0 := fsPull_none hp
          simp [h0, fsPull]

theorem fsInit_inv {n : Nat} {rs : List Segment} (h : chainB n 0 rs = true) :
    FSInv n 0 (fsInit rs) ∧ fsMeasure (fsInit rs) = rs.length ∧
      ∀ a ∈ fsElems (fsInit rs), a ∈ rs := by
  cases rs with
  | nil =>
    refine ⟨⟨?_, fun _ => ⟨rfl, rfl⟩, fun _ => rfl⟩, rfl, by simp [fsInit, fsPull, fsElems, optList]⟩
    simpa [fsInit, fsPull, fsElems, optList_none] using h
  | cons a t =>
    cases t with
    | nil =>
      refine ⟨⟨?_, by simp [fsInit, fsPull], fun _ => rfl⟩, rfl, ?_⟩
      · simpa [fsInit, fsPull, fsElems, optList_none, optList_some] using h
      · simp [fsInit, fsPull, fsElems, optList]
    | cons b t2 =>
      refine ⟨⟨?_, by simp [fsInit, fsPull], by simp [fsInit, fsPull]⟩, ?_, ?_⟩
      · simpa [fsInit, fsPull, fsElems, optList_some] using h
      · simp [fsInit, fsPull, fsMeasure, optList_some]
        omega
      · simp [fsInit, fsPull, fsElems, optList_some]

theorem fsList_chain {n : Nat} : ∀ (f : Nat) (s : FSState) (pos : Nat),
    FSInv n pos s → fsMeasure s ≤ f → chainB n pos (fsList f s) = true := by
  intro f
  induction f with
  | zero =>
    intro s pos hinv hm
    obtain ⟨n1, n2, rest⟩ := s
    have hn1 : n1 = none := by
      cases n1 with
      | none => rfl
      | some a => simp [fsMeasure, optList_some] at hm
    subst hn1
    obtain ⟨hn2, hr⟩ := hinv.2.1 rfl
    subst hn2
    subst hr
    have := hinv.1
    simp only [fsElems, optList_none, List.append_nil, List.nil_append] at this
    simpa [fsList] using this
  | succ f ih =>
    intro s pos hinv hm
    rw [fsList]
    cases hstep : fsNext s with
    | mk o s2 =>
      cases o with
      | none =>
        show chainB n pos [] = true
        rw [chainB_nil_iff]
        exact fsNext_none_inv hinv hstep
      | some e =>
        show chainB n pos (e :: fsList f s2) = true
        obtain ⟨he1, he2, hinv2⟩ := fsNext_emit hinv hstep
        have hm2 := fsNext_measure s s2 e hstep
        rw [chainB_cons_iff]
        exact ⟨he1, he2, ih s2 e.end_ hinv2 (by omega)⟩

/-!
### The block split and the trailing fold-up
-/

theorem div_cut_mono (len k i : Nat) (hkpos : 0 < k) (hlen : k ≤ len) :
    len * i / k + 1 ≤ len * (i + 1) / k := by
  have h2 : len * i / k * k ≤ len * i := Nat.div_mul_le_self (len * i) k
  have h3 : (len * i / k + 1) * k ≤ len * (i + 1) := by
    have : len * (i + 1) = len * i + len := by ring
    rw [Nat.add_mul, one_mul]
    omega
  exact (Nat.le_div_iff_mul_le hkpos).mpr h3

theorem div_cut_bound (len k i : Nat) (hk : k = len / 32) (hlen : 63 < len) :
    len * (i + 1) / k - len * i / k ≤ 63 := by
  have hmod := Nat.div_add_mod len 32
  have hmlt : len % 32 < 32 := Nat.mod_lt _ (by norm_num)
  have hk2 : 2 ≤ k := by omega
  have hkpos : 0 < k := by omega
  have hub : len ≤ 63 * k := by omega
  have hq := Nat.div_add_mod (len * i) k
  have hrlt : len * i % k < k := Nat.mod_lt _ hkpos
  have hsplit : len * (i + 1) = k * (len * i / k) + (len * i % k + len) := by
    have : len * (i + 1) = len * i + len := by ring
    omega
  have hdiv : len * (i + 1) / k = len * i / k + (len * i % k + len) / k := by
    rw [hsplit, Nat.mul_add_div hkpos]
  have hlast : (len * i % k + len) / k ≤ 63 := by
    apply Nat.le_of_lt_succ
    rw [Nat.div_lt_iff_lt_mul hkpos]
    omega
  omega

theorem splitSeg_chainAux (start len k : Nat) (hkpos : 0 < k) (hlen : k ≤ len) :
    ∀ (cnt i : Nat), i + cnt = k →
      chainB (start + len) (start + len * i / k)
        ((List.range' i cnt).map fun t =>
          (⟨start + len * t / k, start + len * (t + 1) / k, 0⟩ : Segment)) = true := by
  intro cnt
  induction cnt with
  | zero =>
    intro i hi
    have hik : i = k := by omega
    subst hik
    simp only [List.range', List.map_nil]
    rw [chainB_nil_iff]
    have hcancel : len * i / i = len := by
      rw [Nat.mul_comm]
      exact Nat.mul_div_cancel_left len hkpos
    rw [hcancel]
  | succ cnt ih =>
    intro i hi
    rw [List.range'_succ]
    simp only [List.map_cons]
    rw [chainB_cons_iff]
    refine ⟨rfl, ?_, ?_⟩
    · dsimp only
      have := div_cut_mono len k i hkpos hlen
      omega
    · dsimp only
      exact ih (i + 1) (by omega)

theorem splitSeg_chain (curr : Segment) (hs : curr.start < curr.end_)
    (hlen : blockMax < curr.len) :
    chainB curr.end_ curr.start (splitSeg curr) = true := by
  have hk2 : 2 ≤ curr.len / blockMin := by
    rw [Nat.le_div_iff_mul_le (by decide : 0 < blockMin)]
    show 2 * 32 ≤ curr.len
    have : (63 : Nat) < curr.len := hlen
    omega
  have hkpos : 0 < curr.len / blockMin := by omega
  have hklen : curr.len / blockMin ≤ curr.len := Nat.div_le_self _ _
  have hmain := splitSeg_chainAux curr.start curr.len (curr.len / blockMin) hkpos hklen
    (curr.len / blockMin) 0 (by omega)
  unfold splitSeg
  dsimp only
  rw [List.range_eq_range']
  have h0 : curr.start + curr.len * 0 / (curr.len / blockMin) = curr.start := by simp
  rw [h0] at hmain
  have hend : curr.start + curr.len = curr.end_ := by
    unfold Segment.len at hlen ⊢
    omega
  rw [hend] at hmain
  exact hmain

theorem splitSeg_mem (curr : Segment) (hlen : blockMax < curr.len) :
    ∀ a ∈ splitSeg curr, a.tag = Unsorted ∧ a.len ≤ blockMax := by
  intro a ha
  unfold splitSeg at ha
  dsimp only at ha
  rw [List.mem_map] at ha
  obtain ⟨i, hi, rfl⟩ := ha
  refine ⟨rfl, ?_⟩
  have hb := div_cut_bound curr.len (curr.len / blockMin) i rfl hlen
  have hbm : blockMax = 63 := rfl
  show (curr.start + curr.len * (i + 1) / (curr.len / blockMin)) -
      (curr.start + curr.len * i / (curr.len / blockMin)) ≤ blockMax
  omega

theorem splitSeg_ne_nil (curr : Segment) (hlen : blockMax < curr.len) :
    splitSeg curr ≠ [] := by
  have hk2 : 2 ≤ curr.len / blockMin := by
    rw [Nat.le_div_iff_mul_le (by decide : 0 < blockMin)]
    show 2 * 32 ≤ curr.len
    have : (63 : Nat) < curr.len := hlen
    omega
  unfold splitSeg
  dsimp only
  simp only [ne_eq, List.map_eq_nil_iff, List.range_eq_nil]
  omega

theorem chainB_extendLast : ∀ (S : List Segment) (a nn : Nat),
    chainB nn a S = true → S ≠ [] → chainB (nn + 1) a (extendLast S) = true := by
  intro S
  induction S with
  | nil => intro a nn h hne; exact absurd rfl hne
  | cons s t ih =>
    intro a nn h hne
    have hc := chainB_cons_iff.mp h
    cases t with
    | nil =>
      have hend : s.end_ = nn := chainB_nil_iff.mp hc.2.2
      simp only [extendLast]
      rw [chainB_cons_iff]
      refine ⟨hc.1, ?_, ?_⟩
      · show a < s.end_ + 1
        omega
      · rw [chainB_nil_iff]
        show s.end_ + 1 = nn + 1
        omega
    | cons s2 t2 =>
      show chainB (nn + 1) a (s :: extendLast (s2 :: t2)) = true
      rw [chainB_cons_iff]
      exact ⟨hc.1, hc.2.1, ih s.end_ nn hc.2.2 (by simp)⟩

theorem segLoop_chain {n : Nat} : ∀ (f : Nat) (S : List Segment) (s : FSState) (pos : Nat),
    chainB pos 0 S = true → FSInv n pos s → fsMeasure s ≤ f →
    chainB n 0 (segLoop f S s) = true := by
  intro f
  induction f with
  | zero =>
    intro S s pos hS hinv hm
    obtain ⟨n1, n2, rest⟩ := s
    have hn1 : n1 = none := by
      cases n1 with
      | none => rfl
      | some a => simp [fsMeasure, optList_some] at hm
    subst hn1
    obtain ⟨hn2, hr⟩ := hinv.2.1 rfl
    subst hn2
    subst hr
    have hpos : pos = n := by
      have := hinv.1
      simp only [fsElems, optList_none, List.append_nil, List.nil_append] at this
      exact chainB_nil_iff.mp this
    subst hpos
    simpa [segLoop] using hS
  | succ f ih =>
    intro S s pos hS hinv hm
    rw [segLoop]
    cases hstep : fsNext s with
    | mk o s2 =>
      cases o with
      | none =>
        show chainB n 0 S = true
        have hpos := fsNext_none_inv hinv hstep
        exact hpos ▸ hS
      | some e =>
        show chainB n 0 (segLoop f (segStep S e (fsFinished s2)) s2) = true
        obtain ⟨he1, he2, hinv2⟩ := fsNext_emit hinv hstep
        have hm2 := fsNext_measure s s2 e hstep
        refine ih (segStep S e (fsFinished s2)) s2 e.end_ ?_ hinv2 (by omega)
        unfold segStep
        split
        · next hcond =>
          have hlen1 : e.end_ = pos + 1 := by
            have h1 : e.len = 1 := hcond.1
            unfold Segment.len at h1
            omega
          rw [hlen1]
          exact chainB_extendLast S 0 pos hS hcond.2.1
        · split
          · apply chainB_append hS
            rw [chainB_cons_iff]
            refine ⟨he1, he2, ?_⟩
            rw [chainB_nil_iff]
          · next hc2 =>
            push_neg at hc2
            apply chainB_append hS
            have hsp := splitSeg_chain e (by omega) (by omega)
            rwa [he1] at hsp

/-!
### The unsorted-block length bound (C10)
-/

theorem fsAbsorb_mem : ∀ (rest : List Segment) (n2 : Segment),
    ∀ a ∈ (fsAbsorb n2 rest).1 :: (fsAbsorb n2 rest).2, a ∈ n2 :: rest := by
  intro rest
  induction rest with
  | nil => intro n2 a ha; simpa [fsAbsorb] using ha
  | cons c cs ih =>
    intro n2 a ha
    rw [fsAbsorb] at ha
    split at ha
    · have := ih c a ha
      simp only [List.mem_cons] at this ⊢
      tauto
    · exact ha

theorem fsNext_elems {s s2 : FSState} {e : Segment} (h : fsNext s = (some e, s2)) :
    ∀ a ∈ fsElems s2, a ∈ fsElems s := by
  obtain ⟨n1, n2, rest⟩ := s
  cases n2 with
  | none =>
    cases n1 with
    | none => simp [fsNext] at h
    | some a =>
      simp only [fsNext] at h
      rw [Prod.mk.injEq] at h
      obtain ⟨he, hs⟩ := h
      subst hs
      intro x hx
      simp only [fsElems, optList_none, optList_some, List.append_nil, List.nil_append] at hx ⊢
      simp [hx]
  | some b =>
    cases n1 with
    | none => simp [fsNext] at h
    | some a =>
      simp only [fsNext] at h
      split at h
      · split at h
        · rw [Prod.mk.injEq] at h
          obtain ⟨he, hs⟩ := h
          subst hs
          intro x hx
          simp only [fsElems, optList_none, optList_some, List.append_nil,
            List.nil_append, List.singleton_append, List.cons_append] at hx ⊢
          have := fsAbsorb_mem rest b x (by simp [hx])
          simp only [List.mem_cons] at this ⊢
          tauto
        · rw [Prod.mk.injEq] at h
          obtain ⟨he, hs⟩ := h
          subst hs
          intro x hx
          simp only [fsElems, optList_some, List.singleton_append, List.cons_append,
            List.nil_append] at hx ⊢
          rw [fsPull_flatten] at hx
          have := fsAbsorb_mem rest b x hx
          simp only [List.mem_cons] at this ⊢
          tauto
      · rw [Prod.mk.injEq] at h
        obtain ⟨he, hs⟩ := h
        subst hs
        intro x hx
        simp only [fsElems, optList_some, List.singleton_append, List.cons_append,
          List.nil_append] at hx ⊢
        rw [fsPull_flatten] at hx
        simp only [List.mem_cons] at hx ⊢
        tauto

theorem fsNext_long {s s2 : FSState} {e a : Segment} (hn1 : s.next1 = some a)
    (hlong : ¬a.len < runThreshold) (h : fsNext s = (some e, s2)) : e = a := by
  obtain ⟨n1, n2, rest⟩ := s
  dsimp only at hn1
  subst hn1
  cases n2 with
  | none =>
    simp only [fsNext] at h
    rw [Prod.mk.injEq] at h
    obtain ⟨he, _⟩ := h
    injection he with he
    exact he.symm
  | some b =>
    simp only [fsNext] at h
    split at h
    · next hc => exact absurd hc.1 hlong
    · rw [Prod.mk.injEq] at h
      obtain ⟨he, _⟩ := h
      injection he with he
      exact he.symm

theorem nextOk_long {s s2 : FSState} {e : Segment} (hok : nextOk s)
    (h : fsNext s = (some e, s2)) : runThreshold ≤ e.len := by
  rcases hok with hn | ⟨a, ha, hlen⟩
  · obtain ⟨n1, n2, rest⟩ := s
    dsimp only at hn
    subst hn
    cases n2 <;> simp [fsNext] at h
  · have := fsNext_long ha (by omega) h
    subst this
    exact hlen

theorem fsNext_tag0 {s s2 : FSState} {e : Segment}
    (htags : ∀ a ∈ fsElems s, a.tag = Inc ∨ a.tag = Dec)
    (h : fsNext s = (some e, s2)) (he : e.tag = Unsorted) : nextOk s2 := by
  obtain ⟨n1, n2, rest⟩ := s
  cases n2 with
  | none =>
    cases n1 with
    | none => simp [fsNext] at h
    | some a =>
      simp only [fsNext] at h
      rw [Prod.mk.injEq] at h
      obtain ⟨hea, _⟩ := h
      injection hea with hea
      subst hea
      have := htags a (by simp [fsElems, optList_some])
      rcases this with h1 | h1 <;> rw [he] at h1 <;> simp [Inc, Dec, Unsorted] at h1
  | some b =>
    cases n1 with
    | none => simp [fsNext] at h
    | some a =>
      simp only [fsNext] at h
      split at h
      · split at h
        · rw [Prod.mk.injEq] at h
          obtain ⟨_, hs⟩ := h
          subst hs
          exact Or.inl rfl
        · next hAlong =>
          rw [Prod.mk.injEq] at h
          obtain ⟨_, hs⟩ := h
          subst hs
          exact Or.inr ⟨(fsAbsorb b rest).1, rfl, by omega⟩
      · rw [Prod.mk.injEq] at h
        obtain ⟨hea, _⟩ := h
        injection hea with hea
        subst hea
        have := htags a (by simp [fsElems, optList_some])
        rcases this with h1 | h1 <;> rw [he] at h1 <;> simp [Inc, Dec, Unsorted] at h1

theorem extendLast_cases : ∀ (S : List Segment), S ≠ [] →
    ∃ b, S.getLast? = some b ∧
      extendLast S = S.dropLast ++ [⟨b.start, b.end_ + 1, b.tag⟩] := by
  intro S
  induction S with
  | nil => intro h; exact absurd rfl h
  | cons s t ih =>
    intro _
    cases t with
    | nil => exact ⟨s, rfl, rfl⟩
    | cons s2 t2 =>
      obtain ⟨b, hb1, hb2⟩ := ih (by simp)
      refine ⟨b, ?_, ?_⟩
      · rw [List.getLast?_cons_cons]
        exact hb1
      · show s :: extendLast (s2 :: t2) = (s :: s2 :: t2).dropLast ++ [_]
        rw [hb2]
        simp

theorem mem_extendLast {S : List Segment} {a : Segment} (hne : S ≠ []) (ha : a ∈ extendLast S) :
    a ∈ S ∨ ∃ b, S.getLast? = some b ∧ a = ⟨b.start, b.end_ + 1, b.tag⟩ := by
  obtain ⟨b, hb1, hb2⟩ := extendLast_cases S hne
  rw [hb2, List.mem_append] at ha
  rcases ha with h | h
  · exact Or.inl (List.mem_of_mem_dropLast h)
  · exact Or.inr ⟨b, hb1, by simpa using h⟩

theorem getLast?_extendLast {S : List Segment} (hne : S ≠ []) :
    ∃ b, S.getLast? = some b ∧
      (extendLast S).getLast? = some ⟨b.start, b.end_ + 1, b.tag⟩ := by
  obtain ⟨b, hb1, hb2⟩ := extendLast_cases S hne
  refine ⟨b, hb1, ?_⟩
  rw [hb2]
  rw [List.getLast?_append_of_ne_nil _ (by simp)]
  rfl

theorem segLoop_bound : ∀ (f : Nat) (S : List Segment) (s : FSState),
    (∀ u ∈ S, u.tag = Unsorted → u.len ≤ blockMax) →
    (∀ u, S.getLast? = some u → u.tag = Unsorted → nextOk s) →
    (∀ a ∈ fsElems s, a.tag = Inc ∨ a.tag = Dec) →
    ∀ u ∈ segLoop f S s, u.tag = Unsorted → u.len ≤ blockMax := by
  intro f
  induction f with
  | zero => intro S s hA _ _; exact hA
  | succ f ih =>
    intro S s hA hB htags
    rw [segLoop]
    cases hstep : fsNext s with
    | mk o s2 =>
      cases o with
      | none =>
        show ∀ u ∈ S, u.tag = Unsorted → u.len ≤ blockMax
        exact hA
      | some e =>
        show ∀ u ∈ segLoop f (segStep S e (fsFinished s2)) s2, u.tag = Unsorted →
          u.len ≤ blockMax
        have htags2 : ∀ a ∈ fsElems s2, a.tag = Inc ∨ a.tag = Dec :=
          fun a ha => htags a (fsNext_elems hstep a ha)
        by_cases hfold : e.len = 1 ∧ S ≠ [] ∧ fsFinished s2 = false
        · have hstepEq : segStep S e (fsFinished s2) = extendLast S := by
            unfold segStep
            rw [if_pos hfold]
          rw [hstepEq]
          obtain ⟨b, hb⟩ : ∃ b, S.getLast? = some b := by
            cases hS : S.getLast? with
            | none => exact absurd (List.getLast?_eq_none_iff.mp hS) hfold.2.1
            | some b => exact ⟨b, rfl⟩
          have hbtag : b.tag ≠ Unsorted := by
            intro h0
            have hlong := nextOk_long (hB b hb h0) hstep
            have h1 := hfold.1
            rw [h1] at hlong
            exact absurd hlong (by decide)
          refine ih (extendLast S) s2 ?_ ?_ htags2
          · intro u hu h0
            rcases mem_extendLast hfold.2.1 hu with h | ⟨b2, hb2, rfl⟩
            · exact hA u h h0
            · rw [hb] at hb2
              injection hb2 with hb2
              subst hb2
              exact absurd h0 hbtag
          · intro u hu h0
            obtain ⟨b2, hb21, hb22⟩ := getLast?_extendLast hfold.2.1
            rw [hb22] at hu
            injection hu with hu
            subst hu
            rw [hb] at hb21
            injection hb21 with hb21
            subst hb21
            exact absurd h0 hbtag
        · by_cases hsmall : e.tag ≠ Unsorted ∨ e.len ≤ blockMax
          · have hstepEq : segStep S e (fsFinished s2) = S ++ [e] := by
              unfold segStep
              rw [if_neg hfold, if_pos hsmall]
            rw [hstepEq]
            refine ih (S ++ [e]) s2 ?_ ?_ htags2
            · intro u hu h0
              rw [List.mem_append] at hu
              rcases hu with h | h
              · exact hA u h h0
              · have hue : u = e := by simpa using h
                subst hue
                rcases hsmall with h1 | h1
                · exact absurd h0 h1
                · exact h1
            · intro u hu h0
              rw [List.getLast?_append_of_ne_nil _ (by simp)] at hu
              have hue : e = u := by simpa using hu
              subst hue
              exact fsNext_tag0 htags hstep h0
          · push_neg at hsmall
            have hstepEq : segStep S e (fsFinished s2) = S ++ splitSeg e := by
              unfold segStep
              rw [if_neg hfold, if_neg (by push_neg; exact hsmall)]
            rw [hstepEq]
            have hbig : blockMax < e.len := by omega
            refine ih (S ++ splitSeg e) s2 ?_ ?_ htags2
            · intro u hu h0
              rw [List.mem_append] at hu
              rcases hu with h | h
              · exact hA u h h0
              · exact (splitSeg_mem e hbig u h).2
            · intro u hu h0
              rw [List.getLast?_append_of_ne_nil _ (splitSeg_ne_nil e hbig)] at hu
              exact fsNext_tag0 htags hstep hsmall.1

/-!
### The confirmed claims
-/

theorem idrSegs_chain {α K : Type} [LinearOrder K] [Inhabited α] (L : List α) (key : α → K)
    (hn : 2 ≤ L.length) : chainB L.length 0 (idrSegs L key) = true :=
  (idrList_spec L key L.length (idrInit L key) (idrInit_good L key hn)
    (by show (0 : Nat) < L.length - 1; omega)
    (by show L.length - 1 - 0 ≤ L.length; omega)).1

theorem idrSegs_runs {α K : Type} [LinearOrder K] [Inhabited α] (L : List α) (key : α → K)
    (hn : 2 ≤ L.length) :
    ∀ seg ∈ idrSegs L key, (seg.tag = Inc ∨ seg.tag = Dec) ∧
      monoB L key seg.tag seg.start (min seg.end_ (L.length - 1)) = true :=
  (idrList_spec L key L.length (idrInit L key) (idrInit_good L key hn)
    (by show (0 : Nat) < L.length - 1; omega)
    (by show L.length - 1 - 0 ≤ L.length; omega)).2

theorem fsSegs_chain {α K : Type} [LinearOrder K] [Inhabited α] (L : List α) (key : α → K)
    (hn : 2 ≤ L.length) : chainB L.length 0 (fsSegs L key) = true := by
  obtain ⟨hinv, hmeq, _⟩ := fsInit_inv (idrSegs_chain L key hn)
  have hlen : (idrSegs L key).length ≤ L.length := idrList_length_le L key L.length _
  exact fsList_chain (L.length + 2) (fsInit (idrSegs L key)) 0 hinv (by omega)

theorem segments_chain {α : Type} [LinearOrder α] [Inhabited α] (L : List α)
    (hn : 2 ≤ L.length) : chainB L.length 0 (segments L) = true := by
  obtain ⟨hinv, hmeq, _⟩ := fsInit_inv (idrSegs_chain L (fun x => x) hn)
  have hlen : (idrSegs L (fun x : α => x)).length ≤ L.length :=
    idrList_length_le L (fun x => x) L.length _
  exact segLoop_chain (L.length + 2) [] (fsInit (idrSegs L (fun x => x))) 0 rfl hinv (by omega)

/-- Claim C5: after every segmentation stage — the run scan (`IncDecRuns`),
the fusion pass (`FuseSegments`) and the final `segments` list (block
splitting and length-1 fold-up included) — the produced segments are
contiguous, non-overlapping, non-empty and jointly cover exactly
`[0, n)`.  `chainB` checks precisely this tiling property. -/
theorem C5_stage_tiling {α K : Type} [LinearOrder α] [LinearOrder K] [Inhabited α]
    (L : List α) (key : α → K) (hn : 2 ≤ L.length) :
    (chainB L.length 0 (idrSegs L key) &&
     chainB L.length 0 (fsSegs L key) &&
     chainB L.length 0 (segments L)) = true := by
  rw [idrSegs_chain L key hn, fsSegs_chain L key hn, segments_chain L hn]
  rfl

/-- Witness for C5 at the concrete list `[3, 1, 2]`. -/
theorem C5_stage_tiling_w :
    (chainB ([3, 1, 2] : List Nat).length 0 (idrSegs [3, 1, 2] (fun x : Nat => x)) &&
     chainB ([3, 1, 2] : List Nat).length 0 (fsSegs [3, 1, 2] (fun x : Nat => x)) &&
     chainB ([3, 1, 2] : List Nat).length 0 (segments [3, 1, 2])) = true :=
  C5_stage_tiling [3, 1, 2] (fun x : Nat => x) (by decide)

/-- Claim C7 (amended): the segments emitted by `IncDecRuns(L, key)`
partition `[0, n)`, and each is monotone in its tagged direction —
`Inc`-tagged segments are non-decreasing and `Dec`-tagged segments
non-increasing under the key over their index range.  The maximality half
of the original claim is dropped: an emitted segment may be extendable by
the adjacent element at its right end (see the counterexample), because
the scanner starts the next run at the position whose comparison ended the
previous one. -/
theorem C7_runs_monotone {α K : Type} [LinearOrder K] [Inhabited α]
    (L : List α) (key : α → K) (hn : 2 ≤ L.length) :
    (chainB L.length 0 (idrSegs L key) &&
     (idrSegs L key).all fun seg =>
       (seg.tag == Inc || seg.tag == Dec) &&
       monoB L key seg.tag seg.start (seg.end_ - 1)) = true := by
  have hchain := idrSegs_chain L key hn
  rw [Bool.and_eq_true]
  refine ⟨hchain, ?_⟩
  rw [List.all_eq_true]
  intro seg hseg
  obtain ⟨htag, hmono⟩ := idrSegs_runs L key hn seg hseg
  rw [Bool.and_eq_true]
  constructor
  · rcases htag with h | h <;> simp [h]
  · have hb := chainB_bounds hchain seg hseg
    refine monoB_anti ?_ hmono
    omega

/-- Witness for the amended C7 at the concrete list `[1, 3, 2]`. -/
theorem C7_runs_monotone_w :
    (chainB ([1, 3, 2] : List Nat).length 0 (idrSegs [1, 3, 2] (fun x : Nat => x)) &&
     (idrSegs [1, 3, 2] (fun x : Nat => x)).all fun seg =>
       (seg.tag == Inc || seg.tag == Dec) &&
       monoB [1, 3, 2] (fun x : Nat => x) seg.tag seg.start (seg.end_ - 1)) = true :=
  C7_runs_monotone [1, 3, 2] (fun x : Nat => x) (by decide)

/-- Claim C8: whenever `segments` encounters a fused unsorted segment of
length greater than `blockMax`, it replaces it by exactly
`k = length / blockMin` unsorted sub-segments with the cut points
`cut i = start + length * i / k`; in particular the unsorted block of
length 70 produced by a zigzag of 35 pairs is split into the two
sub-blocks `[0, 35)` and `[35, 70)` by the full pipeline. -/
theorem C8_block_split (S : List Segment) (curr : Segment) (fin : Bool)
    (h0 : curr.tag = Unsorted) (h1 : blockMax < curr.len) :
    segStep S curr fin =
      S ++ (List.range (curr.len / blockMin)).map
        (fun i => ⟨curr.start + curr.len * i / (curr.len / blockMin),
                   curr.start + curr.len * (i + 1) / (curr.len / blockMin), 0⟩) ∧
    segments (zigzag 35) = [⟨0, 35, 0⟩, ⟨35, 70, 0⟩] := by
  have hb : (63 : Nat) < curr.len := h1
  constructor
  · unfold segStep
    rw [if_neg (by rintro ⟨hc, -⟩; omega), if_neg (by push_neg; exact ⟨h0, h1⟩)]
    rfl
  · decide

/-- Witness for C8 at the segment `[0, 70)` and the zigzag list. -/
theorem C8_block_split_w :
    segStep [] ⟨0, 70, 0⟩ false =
      [] ++ (List.range (70 / blockMin)).map
        (fun i => ⟨0 + 70 * i / (70 / blockMin), 0 + 70 * (i + 1) / (70 / blockMin), 0⟩) ∧
    segments (zigzag 35) = [⟨0, 35, 0⟩, ⟨35, 70, 0⟩] :=
  C8_block_split [] ⟨0, 70, 0⟩ false rfl (by decide)

/-- Claim C10: every `Unsorted`-tagged segment in the final list returned
by `segments L` (for `n ≥ 2`) has length at most `blockMax`: fused blocks
are only appended directly when they fit, oversized blocks are split into
sub-blocks of length at most `blockMax`, and the trailing length-1 fold-up
never extends an unsorted segment because the segment the fuser holds
right after emitting an unsorted block is `none` or of length at least
`runThreshold`. -/
theorem C10_unsorted_bounded {α : Type} [LinearOrder α] [Inhabited α]
    (L : List α) (hn : 2 ≤ L.length) :
    (segments L).all (fun seg => seg.tag != Unsorted || decide (seg.len ≤ blockMax)) = true := by
  rw [List.all_eq_true]
  intro seg hseg
  rw [Bool.or_eq_true, bne_iff_ne, decide_eq_true_iff]
  obtain ⟨hinv, hmeq, hmem⟩ := fsInit_inv (idrSegs_chain L (fun x => x) hn)
  have htags : ∀ a ∈ fsElems (fsInit (idrSegs L (fun x : α => x))),
      a.tag = Inc ∨ a.tag = Dec := by
    intro a ha
    exact (idrSegs_runs L (fun x => x) hn a (hmem a ha)).1
  have hbound := segLoop_bound (L.length + 2) [] (fsInit (idrSegs L (fun x => x)))
    (by intro u hu; cases hu) (by intro u hu; simp at hu) htags
  by_cases ht : seg.tag = Unsorted
  · exact Or.inr (hbound seg hseg ht)
  · exact Or.inl ht

/-- Witness for C10 at the concrete list `[5, 2]`. -/
theorem C10_unsorted_bounded_w :
    (segments [(5 : Nat), 2]).all
      (fun seg => seg.tag != Unsorted || decide (seg.len ≤ blockMax)) = true :=
  C10_unsorted_bounded [(5 : Nat), 2] (by decide)

end TimSortPy
